import Mathlib

/-!
Shallow embedding of `library/mysql_database_migration.py`: the migration
engine of the `mysql-migration` Ansible module.  Pure data is modelled
directly; the MySQL cursor is modelled as a ledger value (a list of rows)
plus an environment `env : String → Bool` giving the success or failure of
executing each script file; `module.fail_json` (which terminates the Ansible
module) is modelled as the `RunResult.fail` constructor.  Python 2 ordering
between `None` and integers (`None` is smaller than every int) is modelled
by the `geOpt` / `ltOpt` / `gtOpt` helpers on `Option Nat`.
-/

namespace MysqlMigration

/-- Direction of a migration script, the `up|down` group of the filename
regular expression. -/
inductive Direction
  | up
  | down
deriving DecidableEq, Repr

/-- One entry of `os.listdir(source)`: a name together with the result of
the `os.path.isfile` test. -/
structure DirEntry where
  fname : String
  isFile : Bool
deriving DecidableEq, Repr

/-- The per-version dictionary value built by
`load_metadata_migration_files`: the `name` field and the optional
`up` / `down` script file names. -/
structure MigRecord where
  name : String
  up : Option String
  down : Option String
deriving DecidableEq, Repr

/-- A row of the migration ledger table
(`version bigint, dirty boolean default 0, name varchar`). -/
structure LedgerRow where
  version : Nat
  name : String
  dirty : Bool
deriving DecidableEq, Repr

/-- The errors reported through `module.fail_json`, plus `indexError` for
an unhandled Python `IndexError` escaping the module code. -/
inductive MigErr
  | versionConflict (version : Nat) (name : String)
  | nameConflict (version : Nat) (name : String) (older : String)
  | indexError
  | missingScript (version : Nat)
  | mysqlError (version : Nat)
  | dirtyError (version : Nat)
  | targetNotFound (target : Nat)
deriving DecidableEq, Repr

/-- Both reconciliation failure messages of `validate_new_with_older_run`
("version conflict ...") count as a version conflict. -/
def MigErr.isVersionConflict : MigErr → Bool
  | .versionConflict _ _ => true
  | .nameConflict _ _ _ => true
  | _ => false

/-- The mutable state of the `database` object during a run, together with
the persisted ledger and observation logs: `executed` records every script
file passed to `cursor.execute`, `applied` records the versions whose step
committed (the `iteration += 1` points). -/
structure EngineState where
  ledger : List LedgerRow
  current : Option Nat
  updated : Option Nat
  changed : Bool
  executed : List String
  applied : List Nat
deriving DecidableEq, Repr

/-- Outcome of running a part of the module: either normal return with the
final state, or a `fail_json` exit carrying the error and the state at that
moment. -/
inductive RunResult
  | ok (s : EngineState)
  | fail (e : MigErr) (s : EngineState)
deriving DecidableEq, Repr

/-- The state a run ends in, whether it returned or failed. -/
def RunResult.state : RunResult → EngineState
  | .ok s => s
  | .fail _ s => s

/-- Python 2 `current_version >= v` where `current_version` may be `None`
(`None` compares smaller than every integer). -/
def geOpt : Option Nat → Nat → Bool
  | none, _ => false
  | some c, v => v ≤ c

/-- Python 2 `current_version < v` with `None` smaller than every integer. -/
def ltOpt : Option Nat → Nat → Bool
  | none, _ => true
  | some c, v => c < v

/-- Python 2 `current_version > v` with `None` smaller than every integer. -/
def gtOpt : Option Nat → Nat → Bool
  | none, _ => false
  | some c, v => v < c

/-! ### MigrationSource: `load_metadata_migration_files` -/

/-- Numeric value of the digit group `([0-9]+)` as computed by `int(...)`. -/
def natOfDigits (l : List Char) : Nat :=
  l.foldl (fun acc c => acc * 10 + (c.toNat - 48)) 0

/-- Split `rest` at the last occurrence of `.down.` or `.up.`, returning the
(greedy) name group, the direction, and the extension group.  This is the
backtracking semantics of the regular expression fragment
`(.*)\.(down|up)\.(.*)$`: the first `(.*)` is greedy, so the rightmost
occurrence of the separator wins. -/
def splitLastDir : List Char → Option (List Char × Direction × List Char)
  | [] => none
  | c :: rest =>
    match splitLastDir rest with
    | some (p, d, e) => some (c :: p, d, e)
    | none =>
      if List.isPrefixOf ".down.".toList (c :: rest) then
        some ([], Direction.down, (c :: rest).drop 6)
      else if List.isPrefixOf ".up.".toList (c :: rest) then
        some ([], Direction.up, (c :: rest).drop 4)
      else none

/-- Matching of a file name against
`^([0-9]+)_(.*)\.(down|up)\.(.*)$` (the regex of
`load_metadata_migration_files`), returning the version, name, direction
and extension groups on success.  The digit group is the maximal leading
digit run (backtracking cannot help since `_` is not a digit). -/
def parseMigrationFile (f : String) : Option (Nat × String × Direction × String) :=
  let cs := f.toList
  let ds := cs.takeWhile Char.isDigit
  if ds.isEmpty then none
  else
    match cs.drop ds.length with
    | '_' :: rest =>
      match splitLastDir rest with
      | some (nm, d, ext) => some (natOfDigits ds, String.mk nm, d, String.mk ext)
      | none => none
    | _ => none

/-- Python `migrations[version].update({"name": name, direction: f})`. -/
def updateRecord (r : MigRecord) (name : String) (d : Direction) (f : String) : MigRecord :=
  match d with
  | .up => { r with name := name, up := some f }
  | .down => { r with name := name, down := some f }

/-- Python `migrations[version] = {"name": name, direction: f}`. -/
def newRecord (name : String) (d : Direction) (f : String) : MigRecord :=
  match d with
  | .up => { name := name, up := some f, down := none }
  | .down => { name := name, up := none, down := some f }

/-- The dictionary write `migrations[version] ...` on the association list
modelling the Python dict (insertion ordered, keyed by version). -/
def insertMig (migs : List (Nat × MigRecord)) (v : Nat) (name : String)
    (d : Direction) (f : String) : List (Nat × MigRecord) :=
  if migs.any (fun m => m.1 == v) then
    migs.map (fun m => if m.1 == v then (m.1, updateRecord m.2 name d f) else m)
  else
    migs ++ [(v, newRecord name d f)]

/-- Python `sorted(migrations.items(), key = lambda i: i[0])`. -/
def sortMigs (migs : List (Nat × MigRecord)) : List (Nat × MigRecord) :=
  List.insertionSort (fun a b => a.1 ≤ b.1) migs

/-- The loop body of `load_metadata_migration_files` over the remaining
`os.listdir` entries.  A regular file whose name does not match the pattern
makes `re.findall` return `[]`, and the unguarded `reg_out[0]` raises an
unhandled `IndexError`. -/
def loadAux (acc : List (Nat × MigRecord)) :
    List DirEntry → Except MigErr (List (Nat × MigRecord))
  | [] => .ok acc
  | e :: es =>
    if e.isFile then
      match parseMigrationFile e.fname with
      | none => .error .indexError
      | some (v, name, d, _ext) => loadAux (insertMig acc v name d e.fname) es
    else loadAux acc es

/-- Model of `database.load_metadata_migration_files`, over the `os.listdir`
entries of the source folder. -/
def load_metadata_migration_files (entries : List DirEntry) :
    Except MigErr (List (Nat × MigRecord)) :=
  (loadAux [] entries).map sortMigs

/-! ### Ledger reads -/

/-- SQL `MAX` over a list of versions, `NULL` (`none`) when empty. -/
def maxVersion : List Nat → Option Nat
  | [] => none
  | v :: vs => some (vs.foldl Nat.max v)

/-- Model of `get_current_version`: `Select MAX(version) ... where dirty IS FALSE`. -/
def get_current_version (ledger : List LedgerRow) : Option Nat :=
  maxVersion ((ledger.filter (fun r => !r.dirty)).map (fun r => r.version))

/-- The rows of the ledger table as returned by
`Select * from ... order by version`. -/
def ledgerRowsSorted (ledger : List LedgerRow) : List LedgerRow :=
  List.insertionSort (fun a b => a.version ≤ b.version) ledger

/-- The state right after `database.init()` succeeds:
`current_version = get_current_version()`, `updated_version =
current_version`, `changed = False`, nothing executed yet. -/
def initState (ledger : List LedgerRow) : EngineState :=
  let cv := get_current_version ledger
  { ledger := ledger, current := cv, updated := cv, changed := false,
    executed := [], applied := [] }

/-! ### ReconciliationCheck: `validate_new_with_older_run` -/

/-- The row loop of `validate_new_with_older_run`: `pos` is the running
index into `self.migrations`; `self.migrations[pos]` raises an unhandled
`IndexError` when `pos` is out of range (IndexError is not caught by the
`except mysql_driver.Error` clause). -/
def validateAux (migs : List (Nat × MigRecord)) :
    List LedgerRow → Nat → Except MigErr Unit
  | [], _ => .ok ()
  | row :: rest, pos =>
    match migs[pos]? with
    | none => .error .indexError
    | some m =>
      if m.1 ≠ row.version then .error (.versionConflict m.1 m.2.name)
      else if m.2.name ≠ row.name then .error (.nameConflict m.1 m.2.name row.name)
      else validateAux migs rest (pos + 1)

/-- Model of `database.validate_new_with_older_run`, walking the ledger rows in
ascending version order against the sorted migration list. -/
def validate_new_with_older_run (migs : List (Nat × MigRecord))
    (ledger : List LedgerRow) : Except MigErr Unit :=
  validateAux migs (ledgerRowsSorted ledger) 0

/-! ### Ledger writes -/

/-- SQL `Insert INTO ... (version, name) VALUES ... ON DUPLICATE KEY UPDATE
dirty=FALSE, name=...` (the `dirty` column defaults to false on insert). -/
def upsertRow (led : List LedgerRow) (v : Nat) (name : String) : List LedgerRow :=
  if led.any (fun r => r.version == v) then
    led.map (fun r => if r.version == v then { r with dirty := false, name := name } else r)
  else led ++ [⟨v, name, false⟩]

/-- SQL `DELETE FROM ... where version = v and name = n`. -/
def deleteRow (led : List LedgerRow) (v : Nat) (name : String) : List LedgerRow :=
  led.filter (fun r => !(r.version == v && r.name == name))

/-! ### MigrationEngine: `migrate_up`, `migrate_down`, `migrate_goto` -/

/-- The loop body of `database.migrate_up` over the remaining migrations.
Faithful points: `updated_version` is assigned at the top of every
iteration, before the skip (`current_version >= version`) and count-break
checks; the count break uses `iteration >= up and up is not 0`; on script
failure the transaction is rolled back and the down script is attempted as
auto-revert; on double failure `fail_json` is invoked BEFORE the
dirty-marking insert is executed, so the ledger is left unchanged. -/
def migrate_up_aux (env : String → Bool) (upCount : Nat) :
    List (Nat × MigRecord) → Nat → EngineState → RunResult
  | [], _, s => .ok s
  | m :: rest, iter, s =>
    let s1 : EngineState := { s with updated := some m.1 }
    if geOpt s1.current m.1 then migrate_up_aux env upCount rest iter s1
    else if upCount ≤ iter ∧ upCount ≠ 0 then .ok s1
    else
      match m.2.up with
      | none => .fail (.missingScript m.1) s1
      | some upFile =>
        let s2 : EngineState := { s1 with executed := s1.executed ++ [upFile] }
        if env upFile then
          let s3 : EngineState :=
            { s2 with ledger := upsertRow s2.ledger m.1 m.2.name,
                      applied := s2.applied ++ [m.1], changed := true }
          migrate_up_aux env upCount rest (iter + 1) s3
        else
          match m.2.down with
          | none => .fail (.mysqlError m.1) s2
          | some downFile =>
            let s3 : EngineState := { s2 with executed := s2.executed ++ [downFile] }
            if env downFile then .fail (.mysqlError m.1) s3
            else .fail (.dirtyError m.1) s3

/-- Model of `database.migrate_up`. -/
def migrate_up (env : String → Bool) (migs : List (Nat × MigRecord))
    (upCount : Nat) (s : EngineState) : RunResult :=
  migrate_up_aux env upCount migs 0 s

/-- The loop body of `database.migrate_down` over the remaining (already
reversed) migrations.  Here `updated_version` is assigned only after the
step's delete commits; the double-failure branch has the same
`fail_json`-before-insert ordering as `migrate_up`, so no dirty row is
written either. -/
def migrate_down_aux (env : String → Bool) (downCount : Nat) :
    List (Nat × MigRecord) → Nat → EngineState → RunResult
  | [], _, s => .ok s
  | m :: rest, iter, s =>
    if ltOpt s.current m.1 then migrate_down_aux env downCount rest iter s
    else if downCount ≤ iter ∧ downCount ≠ 0 then .ok s
    else
      match m.2.down with
      | none => .fail (.missingScript m.1) s
      | some downFile =>
        let s2 : EngineState := { s with executed := s.executed ++ [downFile] }
        if env downFile then
          let s3 : EngineState :=
            { s2 with ledger := deleteRow s2.ledger m.1 m.2.name,
                      updated := some m.1, changed := true,
                      applied := s2.applied ++ [m.1] }
          migrate_down_aux env downCount rest (iter + 1) s3
        else
          match m.2.up with
          | none => .fail (.mysqlError m.1) s2
          | some upFile =>
            let s3 : EngineState := { s2 with executed := s2.executed ++ [upFile] }
            if env upFile then .fail (.mysqlError m.1) s3
            else .fail (.dirtyError m.1) s3

/-- Model of `database.migrate_down`: iterates `reversed(self.migrations)`. -/
def migrate_down (env : String → Bool) (migs : List (Nat × MigRecord))
    (downCount : Nat) (s : EngineState) : RunResult :=
  migrate_down_aux env downCount migs.reverse 0 s

/-- Model of `database.migrate_goto`: the candidate lists and the membership check
happen before any call into `migrate_up` / `migrate_down`, so a
`TargetNotFound` failure executes nothing and leaves the state as it was. -/
def migrate_goto (env : String → Bool) (migs : List (Nat × MigRecord))
    (goto : Nat) (s : EngineState) : RunResult :=
  if ltOpt s.current goto then
    let ups := (migs.filter (fun m => ltOpt s.current m.1 && m.1 ≤ goto)).map (fun m => m.1)
    if goto ∈ ups then migrate_up env migs ups.length s
    else .fail (.targetNotFound goto) s
  else if gtOpt s.current goto then
    let downs := (migs.reverse.filter (fun m => gtOpt s.current m.1 && goto ≤ m.1)).map (fun m => m.1)
    if goto ∈ downs then migrate_down env migs downs.length s
    else .fail (.targetNotFound goto) s
  else .ok { s with changed := false }

/-! ### main: operation dispatch -/

/-- The single operation the module dispatches to. -/
inductive ModuleOp
  | opUp (n : Nat)
  | opDown (n : Nat)
  | opGoto (n : Nat)
deriving DecidableEq, Repr

/-- The `if up is not None: ... elif down is not None: ... elif goto is not
None: ...` dispatch at the end of `main`. -/
def chooseOperation (upP downP gotoP : Option Nat) : Option ModuleOp :=
  match upP with
  | some n => some (.opUp n)
  | none =>
    match downP with
    | some n => some (.opDown n)
    | none =>
      match gotoP with
      | some n => some (.opGoto n)
      | none => none

/-- Model of `db.init()` followed by the dispatched operation, for an already loaded
migration list: `validate_new_with_older_run` runs first, then the current
version is computed and the requested transition executes. -/
def initAndRun (env : String → Bool) (migs : List (Nat × MigRecord))
    (ledger : List LedgerRow) (op : ModuleOp) : RunResult :=
  match validate_new_with_older_run migs ledger with
  | .error e => .fail e (initState ledger)
  | .ok _ =>
    match op with
    | .opUp n => migrate_up env migs n (initState ledger)
    | .opDown n => migrate_down env migs n (initState ledger)
    | .opGoto n => migrate_goto env migs n (initState ledger)

/-- The round trip of testable-property §8: `Up(0)` from an empty ledger,
then a fresh run doing `Down(0)` from the resulting ledger; returns the
final ledger when both runs succeed. -/
def upThenDown (env : String → Bool) (migs : List (Nat × MigRecord)) :
    Option (List LedgerRow) :=
  match migrate_up env migs 0 (initState []) with
  | .ok s1 =>
    match migrate_down env migs 0 (initState s1.ledger) with
    | .ok s2 => some s2.ledger
    | .fail _ _ => none
  | .fail _ _ => none

/-! ### Observation functions used to state the claims -/

/-- The versions `migrate_up` considers pending: the migrations not skipped
by the `current_version >= version` check, in list order. -/
def pendingVersions (migs : List (Nat × MigRecord)) (cur : Option Nat) : List Nat :=
  (migs.filter (fun m => !geOpt cur m.1)).map (fun m => m.1)

/-- First-of-two projection for `Option`: `orO a b` is `a` unless `a` is
`none`. -/
def orO {α : Type} (a b : Option α) : Option α :=
  match a with
  | some x => some x
  | none => b

/-- Last element of a list, `none` when empty. -/
def lastO {α : Type} : List α → Option α
  | [] => none
  | a :: l => orO (lastO l) (some a)

/-- The matching regular files of the directory listing that carry version
`v`, in listing order: each as (name group, direction, file name). -/
def matchingFor (entries : List DirEntry) (v : Nat) :
    List (String × Direction × String) :=
  entries.filterMap (fun e =>
    if e.isFile then
      match parseMigrationFile e.fname with
      | some (w, n, d, _ext) => if w = v then some (n, d, e.fname) else none
      | none => none
    else none)

/-- Name group of the last matching file for a version. -/
def lastName (ms : List (String × Direction × String)) : Option String :=
  lastO (ms.map (fun x => x.1))

/-- File name of the last matching up-direction file for a version. -/
def lastUp (ms : List (String × Direction × String)) : Option String :=
  lastO (ms.filterMap (fun x => if x.2.1 = Direction.up then some x.2.2 else none))

/-- File name of the last matching down-direction file for a version. -/
def lastDown (ms : List (String × Direction × String)) : Option String :=
  lastO (ms.filterMap (fun x => if x.2.1 = Direction.down then some x.2.2 else none))

/-- One dictionary write of the load loop, seen as a function of the
version's previous record. -/
def stepRec (o : Option MigRecord) (x : String × Direction × String) : Option MigRecord :=
  match o with
  | some r => some (updateRecord r x.1 x.2.1 x.2.2)
  | none => some (newRecord x.1 x.2.1 x.2.2)

/-- The record stored under version `v` in the association list modelling
the Python dict (`find?` returns the first hit, as the dict does since the
list never holds a duplicate key). -/
def lookupMig (migs : List (Nat × MigRecord)) (v : Nat) : Option MigRecord :=
  (migs.find? (fun m => m.1 == v)).map (fun m => m.2)

/-! ## Concrete fixtures -/

/-- A single migration (version 1) with both an up and a down script. -/
def migsSingle : List (Nat × MigRecord) :=
  [(1, ⟨"a", some "1_a.up.sql", some "1_a.down.sql"⟩)]

/-- Three migrations `[1, 2, 3]`, each with both scripts. -/
def migsABC : List (Nat × MigRecord) :=
  [(1, ⟨"a", some "1_a.up.sql", some "1_a.down.sql"⟩),
   (2, ⟨"b", some "2_b.up.sql", some "2_b.down.sql"⟩),
   (3, ⟨"c", some "3_c.up.sql", some "3_c.down.sql"⟩)]

/-- A directory with two matching files sharing version 1 (differing name
groups) plus a non-file entry. -/
def entPair : List DirEntry :=
  [⟨"1_a.up.sql", true⟩, ⟨"1_b.down.sql", true⟩, ⟨"notes", false⟩]

/-! ## Claim theorems -/

/-- C10: the module dispatch runs exactly one operation chosen by the fixed
precedence of `main`: `up` over `down` over `goto`; in particular
`up = 0` together with any `goto` dispatches the apply-all `Up(0)` and the
goto target is never consulted. -/
theorem C10_operation_precedence :
    (∀ (u : Nat) (d g : Option Nat), chooseOperation (some u) d g = some (ModuleOp.opUp u)) ∧
    (∀ (d : Nat) (g : Option Nat), chooseOperation none (some d) g = some (ModuleOp.opDown d)) ∧
    (∀ (g : Nat), chooseOperation none none (some g) = some (ModuleOp.opGoto g)) ∧
    (∀ (d g : Option Nat), chooseOperation (some 0) d g = some (ModuleOp.opUp 0)) :=
  ⟨fun _ _ _ => rfl, fun _ _ => rfl, fun _ => rfl, fun _ _ => rfl⟩

/-- C1: on an `Up` step whose script fails and whose auto-revert down
script also fails, the run terminates with the dirty-state fatal error but
the ledger holds NO dirty row (the dirty-marking insert is built and then
skipped because `fail_json` runs first); the same holds for `Down`; and
when the auto-revert succeeds no dirty mark is written either.  This
contradicts the claim that the dirty mark is persisted on double failure. -/
theorem C1_dirty_mark_not_persisted :
    (migrate_up (fun _ => false) migsSingle 0 (initState []) =
      RunResult.fail (MigErr.dirtyError 1)
        { ledger := [], current := none, updated := some 1, changed := false,
          executed := ["1_a.up.sql", "1_a.down.sql"], applied := [] }) ∧
    (migrate_down (fun _ => false) migsSingle 0 (initState [⟨1, "a", false⟩]) =
      RunResult.fail (MigErr.dirtyError 1)
        { ledger := [⟨1, "a", false⟩], current := some 1, updated := some 1, changed := false,
          executed := ["1_a.down.sql", "1_a.up.sql"], applied := [] }) ∧
    (migrate_up (fun f => f == "1_a.down.sql") migsSingle 0 (initState []) =
      RunResult.fail (MigErr.mysqlError 1)
        { ledger := [], current := none, updated := some 1, changed := false,
          executed := ["1_a.up.sql", "1_a.down.sql"], applied := [] }) :=
  ⟨rfl, rfl, rfl⟩

/-- Any remaining entry list holding a regular file whose name does not
match the pattern makes the `load_metadata_migration_files` loop raise the
unhandled `IndexError` from `reg_out[0]`. -/
theorem loadAux_error_of_nonmatching :
    ∀ (es : List DirEntry) (acc : List (Nat × MigRecord)),
      (∃ e ∈ es, e.isFile = true ∧ parseMigrationFile e.fname = none) →
      loadAux acc es = .error .indexError := by
  intro es
  induction es with
  | nil => intro acc h; rcases h with ⟨e, he, _⟩; cases he
  | cons e es ih =>
    intro acc h
    rcases h with ⟨w, hw, hwf, hwp⟩
    by_cases hf : e.isFile = true
    · rcases hp : parseMigrationFile e.fname with _ | v
      · simp only [loadAux, hf, if_true, hp]
      · simp only [loadAux, hf, if_true, hp]
        rcases List.mem_cons.mp hw with rfl | hw'
        · rw [hp] at hwp; cases hwp
        · exact ih _ ⟨w, hw', hwf, hwp⟩
    · simp only [loadAux, hf, if_false]
      rcases List.mem_cons.mp hw with rfl | hw'
      · exact absurd hwf hf
      · exact ih _ ⟨w, hw', hwf, hwp⟩

/-- C2 (amended): loading does NOT ignore non-matching regular files: as
soon as the source directory holds a regular file whose name does not
match `<version>_<name>.<up|down>.<ext>`, metadata loading aborts with an
unhandled IndexError instead of producing the metadata of the remaining
files. -/
theorem C2_nonmatching_file_raises (entries : List DirEntry)
    (h : ∃ e ∈ entries, e.isFile = true ∧ parseMigrationFile e.fname = none) :
    load_metadata_migration_files entries = .error .indexError := by
  unfold load_metadata_migration_files
  rw [loadAux_error_of_nonmatching entries [] h]
  rfl

/-- C2 witness: a directory holding `README.md` next to a valid migration
file crashes the load. -/
theorem C2_nonmatching_file_raises_witness :
    load_metadata_migration_files [⟨"README.md", true⟩, ⟨"1_a.up.sql", true⟩] =
      .error .indexError :=
  C2_nonmatching_file_raises _ ⟨⟨"README.md", true⟩, by decide, rfl, rfl⟩

/-- C2 counterexample: a directory whose only regular file is the
non-matching `README.md` makes loading raise an (unhandled) IndexError,
while loading the directory without that file succeeds with `[]` — so the
non-matching file is neither ignored nor error-free. -/
theorem C2_counterexample :
    load_metadata_migration_files [⟨"README.md", true⟩] = .error .indexError ∧
    load_metadata_migration_files [] = .ok [] :=
  ⟨rfl, rfl⟩

/-- C6: a goto whose target differs from the current version and is not a
known migration version fails with `TargetNotFound` and returns the state
exactly as it was: same ledger, nothing executed. -/
theorem C6_goto_target_not_found (env : String → Bool) (migs : List (Nat × MigRecord))
    (target : Nat) (s : EngineState)
    (hne : s.current ≠ some target)
    (hnot : target ∉ migs.map (fun m => m.1)) :
    migrate_goto env migs target s = RunResult.fail (MigErr.targetNotFound target) s ∧
    (RunResult.fail (MigErr.targetNotFound target) s).state.ledger = s.ledger ∧
    (RunResult.fail (MigErr.targetNotFound target) s).state.executed = s.executed := by
  refine ⟨?_, rfl, rfl⟩
  have hup : target ∉ (migs.filter
      (fun m => ltOpt s.current m.1 && m.1 ≤ target)).map (fun m => m.1) := by
    intro hmem
    rcases List.mem_map.mp hmem with ⟨m, hm, hv⟩
    exact hnot (List.mem_map.mpr ⟨m, List.mem_of_mem_filter hm, hv⟩)
  have hdown : target ∉ (migs.reverse.filter
      (fun m => gtOpt s.current m.1 && target ≤ m.1)).map (fun m => m.1) := by
    intro hmem
    rcases List.mem_map.mp hmem with ⟨m, hm, hv⟩
    exact hnot (List.mem_map.mpr ⟨m, List.mem_reverse.mp (List.mem_of_mem_filter hm), hv⟩)
  unfold migrate_goto
  by_cases h1 : ltOpt s.current target = true
  · simp only [h1, if_true]
    exact if_neg hup
  · simp only [Bool.not_eq_true] at h1
    simp only [h1, Bool.false_eq_true, if_false]
    by_cases h2 : gtOpt s.current target = true
    · simp only [h2, if_true]
      exact if_neg hdown
    · exfalso
      rcases hcur : s.current with _ | c
      · rw [hcur] at h1; simp [ltOpt] at h1
      · rw [hcur] at h1 h2
        simp only [Bool.not_eq_true] at h2
        simp only [ltOpt, gtOpt, decide_eq_false_iff_not, Nat.not_lt] at h1 h2
        exact hne (hcur.trans (congrArg some (Nat.le_antisymm h2 h1)))

/-- C6 witness: `Goto(5)` with migrations `[1, 2, 3]` and an empty ledger
fails with `TargetNotFound` and changes nothing. -/
theorem C6_goto_target_not_found_witness :
    migrate_goto (fun _ => true) migsABC 5 (initState []) =
      RunResult.fail (MigErr.targetNotFound 5) (initState []) ∧
    (RunResult.fail (MigErr.targetNotFound 5) (initState [])).state.ledger =
      (initState []).ledger ∧
    (RunResult.fail (MigErr.targetNotFound 5) (initState [])).state.executed =
      (initState []).executed :=
  C6_goto_target_not_found (fun _ => true) migsABC 5 (initState [])
    (by decide) (by decide)

/-- If the remaining rows match the migrations entry-by-entry from `pos`
on but outnumber them, the row walk of `validate_new_with_older_run`
reaches `pos = migs.length` and raises the IndexError of
`self.migrations[pos]`. -/
theorem validateAux_overrun (migs : List (Nat × MigRecord)) :
    ∀ (rows : List LedgerRow) (pos : Nat),
      pos ≤ migs.length → migs.length < pos + rows.length →
      (∀ j (hj : j < rows.length) (hpj : pos + j < migs.length),
        (migs.get ⟨pos + j, hpj⟩).1 = (rows.get ⟨j, hj⟩).version ∧
        (migs.get ⟨pos + j, hpj⟩).2.name = (rows.get ⟨j, hj⟩).name) →
      validateAux migs rows pos = .error .indexError := by
  intro rows
  induction rows with
  | nil =>
    intro pos h1 h2 _
    simp only [List.length_nil] at h2
    omega
  | cons row rest ih =>
    intro pos h1 h2 hmatch
    rcases Nat.lt_or_ge pos migs.length with hpos | hpos
    · have hget : migs[pos]? = some (migs.get ⟨pos, hpos⟩) := List.getElem?_eq_getElem hpos
      have h0 := hmatch 0 (Nat.succ_pos _) (by omega)
      simp only [Nat.add_zero, List.get] at h0
      simp only [validateAux, hget]
      rw [if_neg (by simp only [ne_eq, not_not]; exact h0.1),
        if_neg (by simp only [ne_eq, not_not]; exact h0.2)]
      refine ih (pos + 1) hpos (by simp only [List.length_cons] at h2; omega) ?_
      intro j hj hpj
      have hidx : pos + 1 + j = pos + (j + 1) := by omega
      have := hmatch (j + 1) (Nat.succ_lt_succ hj) (by omega)
      simp only [List.get] at this
      simp only [hidx]
      exact this
    · have hget : migs[pos]? = none := List.getElem?_eq_none hpos
      simp only [validateAux, hget]

/-- C9: when the ledger has more rows than there are on-disk migrations,
even though every migration matches its ledger row, the reconciliation
check ends in the unhandled IndexError — not a version conflict — so it is
not total over ledger/migration pairs. -/
theorem C9_ledger_longer_index_error (migs : List (Nat × MigRecord))
    (ledger : List LedgerRow)
    (hlen : migs.length < ledger.length)
    (hpre : ∀ j (hj : j < (ledgerRowsSorted ledger).length) (hm : j < migs.length),
      (migs.get ⟨j, hm⟩).1 = ((ledgerRowsSorted ledger).get ⟨j, hj⟩).version ∧
      (migs.get ⟨j, hm⟩).2.name = ((ledgerRowsSorted ledger).get ⟨j, hj⟩).name) :
    validate_new_with_older_run migs ledger = .error .indexError ∧
    MigErr.isVersionConflict .indexError = false := by
  refine ⟨?_, rfl⟩
  have hlen' : (ledgerRowsSorted ledger).length = ledger.length :=
    (List.perm_insertionSort _ ledger).length_eq
  unfold validate_new_with_older_run
  refine validateAux_overrun migs (ledgerRowsSorted ledger) 0 (Nat.zero_le _)
    (by omega) ?_
  intro j hj hpj
  simp only [Nat.zero_add]
  exact hpre j hj (by omega)

/-- C9 witness: one matching migration, two ledger rows. -/
theorem C9_ledger_longer_index_error_witness :
    validate_new_with_older_run [(1, ⟨"a", some "1_a.up.sql", none⟩)]
      [⟨1, "a", false⟩, ⟨2, "b", false⟩] = .error .indexError ∧
    MigErr.isVersionConflict .indexError = false :=
  C9_ledger_longer_index_error _ _ (by decide)
    (by intro j hj hm
        have hj0 : j = 0 := Nat.lt_one_iff.mp (by simpa using hm)
        subst hj0
        exact ⟨rfl, rfl⟩)

/-- If some row within range of the migration list disagrees with the
migration at its position, the row walk fails with one of the two version
conflict messages. -/
theorem validateAux_conflict (migs : List (Nat × MigRecord)) :
    ∀ (rows : List LedgerRow) (pos i : Nat) (hi : i < rows.length)
      (him : pos + i < migs.length),
      ((migs.get ⟨pos + i, him⟩).1 ≠ (rows.get ⟨i, hi⟩).version ∨
        (migs.get ⟨pos + i, him⟩).2.name ≠ (rows.get ⟨i, hi⟩).name) →
      ∃ e, validateAux migs rows pos = .error e ∧ e.isVersionConflict = true := by
  intro rows
  induction rows with
  | nil => intro pos i hi; cases hi
  | cons row rest ih =>
    intro pos i hi him hmis
    have hpos : pos < migs.length := by omega
    have hget : migs[pos]? = some (migs.get ⟨pos, hpos⟩) := List.getElem?_eq_getElem hpos
    simp only [validateAux, hget]
    by_cases hv : (migs.get ⟨pos, hpos⟩).1 = row.version
    · rw [if_neg (by simp only [ne_eq, not_not]; exact hv)]
      by_cases hn : (migs.get ⟨pos, hpos⟩).2.name = row.name
      · rw [if_neg (by simp only [ne_eq, not_not]; exact hn)]
        rcases i with _ | j
        · exfalso
          simp only [Nat.add_zero, List.get] at hmis
          rcases hmis with h | h
          · exact h (by simpa using hv)
          · exact h (by simpa using hn)
        · refine ih (pos + 1) j (Nat.lt_of_succ_lt_succ hi) (by omega) ?_
          have hrw : pos + 1 + j = pos + (j + 1) := by omega
          simp only [List.get] at hmis
          simp only [hrw]
          exact hmis
      · rw [if_pos (by exact hn)]
        exact ⟨_, rfl, rfl⟩
    · rw [if_pos (by exact hv)]
      exact ⟨_, rfl, rfl⟩

/-- C7: a ledger row (in ascending read order) whose version or name
differs from the migration at the same position makes the engine fail with
a version conflict during `init`, before any operation runs: the failure
state is the untouched `initState`, with nothing executed and the ledger
as it was. -/
theorem C7_version_conflict_before_steps (env : String → Bool)
    (migs : List (Nat × MigRecord)) (ledger : List LedgerRow) (op : ModuleOp)
    (i : Nat) (hi : i < (ledgerRowsSorted ledger).length) (him : i < migs.length)
    (hmis : (migs.get ⟨i, him⟩).1 ≠ ((ledgerRowsSorted ledger).get ⟨i, hi⟩).version ∨
      (migs.get ⟨i, him⟩).2.name ≠ ((ledgerRowsSorted ledger).get ⟨i, hi⟩).name) :
    ∃ e, initAndRun env migs ledger op = RunResult.fail e (initState ledger) ∧
      e.isVersionConflict = true ∧
      (initState ledger).executed = [] ∧ (initState ledger).ledger = ledger := by
  have him' : 0 + i < migs.length := by omega
  have hc := validateAux_conflict migs (ledgerRowsSorted ledger) 0 i hi him' ?_
  · rcases hc with ⟨e, he, hvc⟩
    refine ⟨e, ?_, hvc, rfl, rfl⟩
    unfold initAndRun validate_new_with_older_run
    rw [he]
  · simp only [Nat.zero_add]
    exact hmis

/-- C7 witness: ledger row `(3, "x")` against on-disk migration
`3_y`: the run fails with a version conflict and the ledger is untouched. -/
theorem C7_version_conflict_before_steps_witness :
    ∃ e, initAndRun (fun _ => true) [(3, ⟨"y", some "3_y.up.sql", none⟩)]
        [⟨3, "x", false⟩] (ModuleOp.opUp 0) =
        RunResult.fail e (initState [⟨3, "x", false⟩]) ∧
      e.isVersionConflict = true ∧
      (initState [⟨3, "x", false⟩]).executed = [] ∧
      (initState [⟨3, "x", false⟩]).ledger = [⟨3, "x", false⟩] :=
  C7_version_conflict_before_steps (fun _ => true) _ _ (ModuleOp.opUp 0) 0
    (by decide) (by decide) (Or.inr (by decide))

/-- In `migrate_up`, `updated_version` is written at the top of every loop
iteration, before the skip and count checks: after a run over a non-empty
list it equals the version of some visited migration (the last one),
whether or not that migration's step ran. -/
theorem up_aux_updated (env : String → Bool) (upCount : Nat) :
    ∀ (l : List (Nat × MigRecord)) (iter : Nat) (s : EngineState),
      ((RunResult.state (migrate_up_aux env upCount l iter s)).updated = s.updated ∧ l = []) ∨
      ∃ m ∈ l, (RunResult.state (migrate_up_aux env upCount l iter s)).updated = some m.1 := by
  intro l
  induction l with
  | nil => intro iter s; exact Or.inl ⟨rfl, rfl⟩
  | cons m rest ih =>
    intro iter s
    right
    simp only [migrate_up_aux]
    by_cases hskip : geOpt s.current m.1 = true
    · rw [if_pos (by exact hskip)]
      rcases ih iter { s with updated := some m.1 } with ⟨h1, _⟩ | ⟨m', hm', h'⟩
      · exact ⟨m, List.mem_cons_self m rest, h1⟩
      · exact ⟨m', List.mem_cons_of_mem m hm', h'⟩
    · rw [if_neg (by exact hskip)]
      by_cases hbrk : upCount ≤ iter ∧ upCount ≠ 0
      · rw [if_pos (by exact hbrk)]
        exact ⟨m, List.mem_cons_self m rest, rfl⟩
      · rw [if_neg (by exact hbrk)]
        rcases hup : m.2.up with _ | f
        · exact ⟨m, List.mem_cons_self m rest, rfl⟩
        · dsimp only
          by_cases henv : env f = true
          · rw [if_pos (by exact henv)]
            rcases ih (iter + 1) _ with ⟨h1, _⟩ | ⟨m', hm', h'⟩
            · exact ⟨m, List.mem_cons_self m rest, h1⟩
            · exact ⟨m', List.mem_cons_of_mem m hm', h'⟩
          · rw [if_neg (by exact henv)]
            rcases hdn : m.2.down with _ | g
            · exact ⟨m, List.mem_cons_self m rest, rfl⟩
            · dsimp only
              by_cases hg : env g = true
              · rw [if_pos (by exact hg)]
                exact ⟨m, List.mem_cons_self m rest, rfl⟩
              · rw [if_neg (by exact hg)]
                exact ⟨m, List.mem_cons_self m rest, rfl⟩

/-- In `migrate_down`, `updated_version` is only written after a step's
delete commits: it ends as the initial value or as the version of a
migration whose down script ran successfully. -/
theorem down_aux_updated (env : String → Bool) (downCount : Nat) :
    ∀ (l : List (Nat × MigRecord)) (iter : Nat) (s : EngineState),
      (RunResult.state (migrate_down_aux env downCount l iter s)).updated = s.updated ∨
      ∃ m ∈ l, (∃ f, m.2.down = some f ∧ env f = true) ∧
        (RunResult.state (migrate_down_aux env downCount l iter s)).updated = some m.1 := by
  intro l
  induction l with
  | nil => intro iter s; exact Or.inl rfl
  | cons m rest ih =>
    intro iter s
    simp only [migrate_down_aux]
    by_cases hskip : ltOpt s.current m.1 = true
    · rw [if_pos (by exact hskip)]
      rcases ih iter s with h | ⟨m', hm', hf', h'⟩
      · exact Or.inl h
      · exact Or.inr ⟨m', List.mem_cons_of_mem m hm', hf', h'⟩
    · rw [if_neg (by exact hskip)]
      by_cases hbrk : downCount ≤ iter ∧ downCount ≠ 0
      · rw [if_pos (by exact hbrk)]
        exact Or.inl rfl
      · rw [if_neg (by exact hbrk)]
        rcases hdn : m.2.down with _ | f
        · exact Or.inl rfl
        · dsimp only
          by_cases henv : env f = true
          · rw [if_pos (by exact henv)]
            rcases ih (iter + 1) _ with h | ⟨m', hm', hf', h'⟩
            · exact Or.inr ⟨m, List.mem_cons_self m rest, ⟨f, hdn, henv⟩, h⟩
            · exact Or.inr ⟨m', List.mem_cons_of_mem m hm', hf', h'⟩
          · rw [if_neg (by exact henv)]
            rcases hup : m.2.up with _ | g
            · exact Or.inl rfl
            · dsimp only
              by_cases hg : env g = true
              · rw [if_pos (by exact hg)]
                exact Or.inl rfl
              · rw [if_neg (by exact hg)]
                exact Or.inl rfl

/-- C4 counterexample: `Up(2)` over migrations `[1, 2, 3]` on an empty
ledger succeeds having applied exactly versions 1 and 2, yet ends with
`updated_version = 3` — neither the initial current version (`none`) nor
the last successfully applied version (2): version 3's step never ran. -/
theorem C4_counterexample :
    migrate_up (fun _ => true) migsABC 2 (initState []) =
      RunResult.ok
        { ledger := [⟨1, "a", false⟩, ⟨2, "b", false⟩], current := none,
          updated := some 3, changed := true,
          executed := ["1_a.up.sql", "2_b.up.sql"], applied := [1, 2] } ∧
    (initState ([] : List LedgerRow)).updated = none ∧
    (some 3 ≠ (none : Option Nat)) ∧ (some 3 ≠ some 2) :=
  ⟨rfl, rfl, by decide, by decide⟩

/-- C4 (amended): during `Up`, `updated_version` is assigned the version of
every visited migration before the skip and count-limit checks, so a run
over a non-empty list ends with `updated_version` equal to the version of
some visited migration — possibly one that was skipped or whose step never
completed (and it is unchanged only when the list is empty); during
`Down`, `updated_version` is assigned only when a step's script succeeds,
so it ends as either its initial value or the version of a migration whose
down script succeeded. -/
theorem C4_amended_updated_discipline :
    (∀ (env : String → Bool) (migs : List (Nat × MigRecord)) (upCount : Nat) (s : EngineState),
      migs = [] → RunResult.state (migrate_up env migs upCount s) = s) ∧
    (∀ (env : String → Bool) (migs : List (Nat × MigRecord)) (upCount : Nat) (s : EngineState),
      migs ≠ [] →
        ∃ m ∈ migs, (RunResult.state (migrate_up env migs upCount s)).updated = some m.1) ∧
    (∀ (env : String → Bool) (migs : List (Nat × MigRecord)) (downCount : Nat) (s : EngineState),
      (RunResult.state (migrate_down env migs downCount s)).updated = s.updated ∨
      ∃ m ∈ migs, (∃ f, m.2.down = some f ∧ env f = true) ∧
        (RunResult.state (migrate_down env migs downCount s)).updated = some m.1) := by
  refine ⟨?_, ?_, ?_⟩
  · intro env migs upCount s h
    subst h
    rfl
  · intro env migs upCount s h
    rcases up_aux_updated env upCount migs 0 s with ⟨_, hnil⟩ | hex
    · exact absurd hnil h
    · exact hex
  · intro env migs downCount s
    rcases down_aux_updated env downCount migs.reverse 0 s with h | ⟨m, hm, hf, h'⟩
    · exact Or.inl h
    · exact Or.inr ⟨m, List.mem_reverse.mp hm, hf, h'⟩

/-- C4 witness: the amended discipline applied to the concrete `Up(2)` run
over migrations `[1, 2, 3]`. -/
theorem C4_amended_witness :
    ∃ m ∈ migsABC,
      (RunResult.state (migrate_up (fun _ => true) migsABC 2 (initState []))).updated =
        some m.1 :=
  C4_amended_updated_discipline.2.1 (fun _ => true) migsABC 2 (initState []) (by decide)

/-- With `up = 0` (apply all) and every pending migration having a
successful up script, the loop commits exactly the pending versions, in
list order. -/
theorem up_aux_apply_all (env : String → Bool) :
    ∀ (l : List (Nat × MigRecord)) (iter : Nat) (s : EngineState),
      (∀ m ∈ l, geOpt s.current m.1 = false → ∃ f, m.2.up = some f ∧ env f = true) →
      ∃ s', migrate_up_aux env 0 l iter s = .ok s' ∧
        s'.applied = s.applied ++ pendingVersions l s.current := by
  intro l
  induction l with
  | nil =>
    intro iter s _
    exact ⟨s, rfl, by simp [pendingVersions]⟩
  | cons m rest ih =>
    intro iter s h
    simp only [migrate_up_aux]
    by_cases hskip : geOpt s.current m.1 = true
    · rw [if_pos (by exact hskip)]
      rcases ih iter { s with updated := some m.1 }
          (fun m' hm' hc => h m' (List.mem_cons_of_mem m hm') hc) with ⟨s', hrun, happ⟩
      refine ⟨s', hrun, ?_⟩
      rw [happ]
      simp [pendingVersions, List.filter_cons, hskip]
    · rw [if_neg (by exact hskip)]
      rw [if_neg (by simp)]
      have hm0 : geOpt s.current m.1 = false := by
        simpa using hskip
      rcases h m (List.mem_cons_self m rest) hm0 with ⟨f, hf, henvf⟩
      simp only [hf]
      rw [if_pos (by exact henvf)]
      rcases ih (iter + 1)
          { s with ledger := upsertRow s.ledger m.1 m.2.name,
                   updated := some m.1, changed := true,
                   executed := s.executed ++ [f], applied := s.applied ++ [m.1] }
          (fun m' hm' hc => h m' (List.mem_cons_of_mem m hm') hc) with ⟨s', hrun, happ⟩
      refine ⟨s', hrun, ?_⟩
      rw [happ]
      simp [pendingVersions, List.filter_cons, hm0]

/-- With a non-zero count, the loop commits at most `upCount - iter` more
versions, each of them pending. -/
theorem up_aux_count_bound (env : String → Bool) (upCount : Nat) :
    ∀ (l : List (Nat × MigRecord)) (iter : Nat) (s : EngineState),
      ∃ ll, (RunResult.state (migrate_up_aux env upCount l iter s)).applied = s.applied ++ ll ∧
        (upCount ≠ 0 → ll.length ≤ upCount - iter) ∧
        ∀ v ∈ ll, geOpt s.current v = false := by
  intro l
  induction l with
  | nil =>
    intro iter s
    exact ⟨[], by simp [migrate_up_aux, RunResult.state], fun _ => by simp, by simp⟩
  | cons m rest ih =>
    intro iter s
    simp only [migrate_up_aux]
    by_cases hskip : geOpt s.current m.1 = true
    · rw [if_pos (by exact hskip)]
      exact ih iter { s with updated := some m.1 }
    · rw [if_neg (by exact hskip)]
      have hm0 : geOpt s.current m.1 = false := by
        simpa using hskip
      by_cases hbrk : upCount ≤ iter ∧ upCount ≠ 0
      · rw [if_pos (by exact hbrk)]
        exact ⟨[], by simp [RunResult.state], fun _ => by simp, by simp⟩
      · rw [if_neg (by exact hbrk)]
        rcases hup : m.2.up with _ | f
        · exact ⟨[], by simp [RunResult.state], fun _ => by simp, by simp⟩
        · dsimp only
          by_cases henv : env f = true
          · rw [if_pos (by exact henv)]
            rcases ih (iter + 1)
                { s with ledger := upsertRow s.ledger m.1 m.2.name,
                         updated := some m.1, changed := true,
                         executed := s.executed ++ [f],
                         applied := s.applied ++ [m.1] } with ⟨ll, happ, hlen, hmem⟩
            refine ⟨m.1 :: ll, ?_, ?_, ?_⟩
            · rw [happ]
              simp
            · intro hne
              have h1 : ¬upCount ≤ iter := fun hle => hbrk ⟨hle, hne⟩
              have h2 := hlen hne
              simp only [List.length_cons]
              omega
            · intro v hv
              rcases List.mem_cons.mp hv with rfl | hv'
              · exact hm0
              · exact hmem v hv'
          · rw [if_neg (by exact henv)]
            rcases hdn : m.2.down with _ | g
            · exact ⟨[], by simp [RunResult.state], fun _ => by simp, by simp⟩
            · dsimp only
              by_cases hg : env g = true
              · rw [if_pos (by exact hg)]
                exact ⟨[], by simp [RunResult.state], fun _ => by simp, by simp⟩
              · rw [if_neg (by exact hg)]
                exact ⟨[], by simp [RunResult.state], fun _ => by simp, by simp⟩

/-- C3: `Up(0)` applies exactly the pending versions in list order (all
versions `> currentVersion`, in ascending order when the list is sorted);
`Up(count)` with `count ≠ 0` applies at most `count` versions, all of them
pending; and concretely, `Up(2)` on an empty ledger with migrations
`[1, 2, 3]` applies exactly versions 1 and 2, leaves the ledger's current
version at 2, and reports `changed = true`. -/
theorem C3_up_count_semantics :
    (∀ (env : String → Bool) (migs : List (Nat × MigRecord)) (s : EngineState),
      (∀ m ∈ migs, geOpt s.current m.1 = false → ∃ f, m.2.up = some f ∧ env f = true) →
      ∃ s', migrate_up env migs 0 s = .ok s' ∧
        s'.applied = s.applied ++ pendingVersions migs s.current) ∧
    (∀ (env : String → Bool) (migs : List (Nat × MigRecord)) (upCount : Nat) (s : EngineState),
      upCount ≠ 0 →
      ∃ ll, (RunResult.state (migrate_up env migs upCount s)).applied = s.applied ++ ll ∧
        ll.length ≤ upCount ∧ ∀ v ∈ ll, geOpt s.current v = false) ∧
    (∀ (migs : List (Nat × MigRecord)) (cur : Option Nat),
      List.Pairwise (fun a b => a.1 < b.1) migs →
      List.Pairwise (· < ·) (pendingVersions migs cur)) ∧
    (migrate_up (fun _ => true) migsABC 2 (initState []) =
      RunResult.ok
        { ledger := [⟨1, "a", false⟩, ⟨2, "b", false⟩], current := none,
          updated := some 3, changed := true,
          executed := ["1_a.up.sql", "2_b.up.sql"], applied := [1, 2] } ∧
      get_current_version [⟨1, "a", false⟩, ⟨2, "b", false⟩] = some 2) := by
  refine ⟨?_, ?_, ?_, rfl, rfl⟩
  · intro env migs s h
    exact up_aux_apply_all env migs 0 s h
  · intro env migs upCount s hne
    rcases up_aux_count_bound env upCount migs 0 s with ⟨ll, happ, hlen, hmem⟩
    exact ⟨ll, happ, by simpa using hlen hne, hmem⟩
  · intro migs cur hsorted
    exact List.pairwise_map.mpr (hsorted.filter _)

/-- C3 witness: the general clauses applied to the concrete migration list
`[1, 2, 3]` on an empty ledger. -/
theorem C3_up_count_semantics_witness :
    (∃ s', migrate_up (fun _ => true) migsABC 0 (initState []) = .ok s' ∧
      s'.applied = (initState []).applied ++
        pendingVersions migsABC (initState []).current) ∧
    (∃ ll, (RunResult.state (migrate_up (fun _ => true) migsABC 2 (initState []))).applied =
        (initState []).applied ++ ll ∧ ll.length ≤ 2 ∧
        ∀ v ∈ ll, geOpt (initState []).current v = false) ∧
    List.Pairwise (· < ·) (pendingVersions migsABC none) :=
  ⟨C3_up_count_semantics.1 (fun _ => true) migsABC (initState [])
      (by intro m hm _
          simp only [migsABC, List.mem_cons, List.not_mem_nil, or_false] at hm
          rcases hm with rfl | rfl | rfl <;> exact ⟨_, rfl, rfl⟩),
   C3_up_count_semantics.2.1 (fun _ => true) migsABC 2 (initState []) (by decide),
   C3_up_count_semantics.2.2.1 migsABC none (by decide)⟩

/-! ### Lemmas about the load dictionary -/

theorem orO_none_right {α : Type} (a : Option α) : orO a none = a := by
  cases a <;> rfl

theorem orO_some_absorb {α : Type} (a : Option α) (x : α) (c : Option α) :
    orO (orO a (some x)) c = orO a (some x) := by
  cases a <;> rfl

/-- Lookup by key commutes with a key-preserving map. -/
theorem find?_map_key (g : Nat × MigRecord → Nat × MigRecord)
    (hg : ∀ m, (g m).1 = m.1) (w : Nat) :
    ∀ l : List (Nat × MigRecord),
      List.find? (fun m => m.1 == w) (l.map g) =
        (List.find? (fun m => m.1 == w) l).map g := by
  intro l
  induction l with
  | nil => rfl
  | cons m rest ih =>
    simp only [List.map_cons]
    rw [List.find?_cons, List.find?_cons, hg m]
    cases hpw : (m.1 == w) <;> simp [ih]

/-- Writing version `v` into the dictionary updates exactly the record
under `v`, by `stepRec`. -/
theorem lookup_insertMig (migs : List (Nat × MigRecord)) (v : Nat) (name : String)
    (d : Direction) (f : String) (w : Nat) :
    lookupMig (insertMig migs v name d f) w =
      if w = v then stepRec (lookupMig migs v) (name, d, f) else lookupMig migs w := by
  unfold insertMig
  by_cases hany : migs.any (fun m => m.1 == v) = true
  · rw [if_pos hany]
    have hg : ∀ m : Nat × MigRecord,
        ((fun m => if m.1 == v then (m.1, updateRecord m.2 name d f) else m) m).1 = m.1 := by
      intro m
      by_cases h : (m.1 == v) = true <;> simp [h]
    unfold lookupMig
    rw [find?_map_key _ hg w]
    by_cases hw : w = v
    · subst hw
      have hex : ∃ x ∈ migs, (x.1 == w) = true := List.any_eq_true.mp hany
      rcases Option.isSome_iff_exists.mp (List.find?_isSome.mpr hex) with ⟨m0, hm0⟩
      rw [hm0]
      have hm0v : m0.1 = w := by simpa using List.find?_some hm0
      simp [stepRec, hm0v]
    · rw [if_neg hw]
      cases hfind : List.find? (fun m => m.1 == w) migs with
      | none => rfl
      | some m0 =>
        have hm0w : m0.1 = w := by simpa using List.find?_some hfind
        simp [hm0w, hw]
  · rw [if_neg hany]
    have hany2 : migs.any (fun m => m.1 == v) = false := Bool.eq_false_iff.mpr hany
    have hmigsv : List.find? (fun m => m.1 == v) migs = none := by
      refine List.find?_eq_none.mpr ?_
      intro a ha
      exact List.any_eq_false.mp hany2 a ha
    unfold lookupMig
    rw [List.find?_append]
    by_cases hw : w = v
    · subst hw
      rw [hmigsv]
      simp [stepRec]
    · have hsingle : List.find? (fun m => m.1 == w) [(v, newRecord name d f)] = none := by
        refine List.find?_eq_none.mpr ?_
        intro a ha
        have : a = (v, newRecord name d f) := by simpa using ha
        subst this
        simp [Ne.symm hw]
      rw [hsingle, Option.or_none, if_neg hw]

/-- The load loop computes, for each version, the left fold of `stepRec`
over that version's matching files. -/
theorem loadAux_lookup :
    ∀ (es : List DirEntry) (acc out : List (Nat × MigRecord)),
      loadAux acc es = .ok out →
      ∀ v, lookupMig out v = (matchingFor es v).foldl stepRec (lookupMig acc v) := by
  intro es
  induction es with
  | nil =>
    intro acc out h v
    simp only [loadAux, Except.ok.injEq] at h
    subst h
    simp [matchingFor]
  | cons e es ih =>
    intro acc out h v
    simp only [loadAux] at h
    by_cases hf : e.isFile = true
    · rw [if_pos hf] at h
      rcases hp : parseMigrationFile e.fname with _ | q
      · rw [hp] at h
        cases h
      · obtain ⟨v2, n, d, ext⟩ := q
        rw [hp] at h
        have hih := ih _ _ h v
        rw [hih]
        simp only [matchingFor, List.filterMap_cons, hf, if_true, hp]
        by_cases hv : v2 = v
        · subst hv
          rw [if_pos rfl]
          dsimp only
          simp only [List.foldl_cons]
          rw [lookup_insertMig, if_pos rfl]
        · rw [if_neg hv]
          dsimp only
          rw [lookup_insertMig, if_neg (fun hh => hv hh.symm)]
    · rw [if_neg hf] at h
      have hih := ih _ _ h v
      rw [hih]
      simp [matchingFor, List.filterMap_cons, hf]

/-- The keys of the dictionary after a write. -/
theorem insertMig_keys (migs : List (Nat × MigRecord)) (v : Nat) (name : String)
    (d : Direction) (f : String) :
    (insertMig migs v name d f).map (fun m => m.1) =
      if migs.any (fun m => m.1 == v) = true then migs.map (fun m => m.1)
      else migs.map (fun m => m.1) ++ [v] := by
  unfold insertMig
  by_cases hany : migs.any (fun m => m.1 == v) = true
  · rw [if_pos hany, if_pos hany, List.map_map]
    refine List.map_congr_left ?_
    intro m _
    by_cases h : (m.1 == v) = true <;> simp [Function.comp, h]
  · rw [if_neg hany, if_neg hany]
    simp

/-- The load loop never creates a duplicate version key. -/
theorem loadAux_keys_nodup :
    ∀ (es : List DirEntry) (acc out : List (Nat × MigRecord)),
      loadAux acc es = .ok out →
      (acc.map (fun m => m.1)).Nodup → (out.map (fun m => m.1)).Nodup := by
  intro es
  induction es with
  | nil =>
    intro acc out h hnd
    simp only [loadAux, Except.ok.injEq] at h
    subst h
    exact hnd
  | cons e es ih =>
    intro acc out h hnd
    simp only [loadAux] at h
    by_cases hf : e.isFile = true
    · rw [if_pos hf] at h
      rcases hp : parseMigrationFile e.fname with _ | q
      · rw [hp] at h
        cases h
      · obtain ⟨v2, n, d, ext⟩ := q
        rw [hp] at h
        refine ih _ _ h ?_
        rw [insertMig_keys]
        by_cases hany : acc.any (fun m => m.1 == v2) = true
        · rw [if_pos hany]
          exact hnd
        · rw [if_neg hany]
          have hvnot : v2 ∉ acc.map (fun m => m.1) := by
            intro hmem
            rcases List.mem_map.mp hmem with ⟨m, hm, hv⟩
            exact absurd (List.any_eq_true.mpr ⟨m, hm, by simp [hv]⟩) hany
          simp [List.nodup_append, hnd, hvnot]
    · rw [if_neg hf] at h
      exact ih _ _ h hnd

theorem lookup_eq_none (migs : List (Nat × MigRecord)) (v : Nat) :
    lookupMig migs v = none ↔ v ∉ migs.map (fun m => m.1) := by
  unfold lookupMig
  constructor
  · intro h hmem
    rcases List.mem_map.mp hmem with ⟨m, hm, hv⟩
    cases hfind : List.find? (fun m => m.1 == v) migs with
    | none =>
      exact absurd (by simp [hv]) (List.find?_eq_none.mp hfind m hm)
    | some m0 =>
      rw [hfind] at h
      cases h
  · intro h
    rw [List.find?_eq_none.mpr ?_]
    · rfl
    · intro a ha hpa
      exact h (List.mem_map.mpr ⟨a, ha, by simpa using hpa⟩)

theorem lookup_some_iff_mem (migs : List (Nat × MigRecord))
    (hnd : (migs.map (fun m => m.1)).Nodup) (v : Nat) (r : MigRecord) :
    lookupMig migs v = some r ↔ (v, r) ∈ migs := by
  constructor
  · intro h
    unfold lookupMig at h
    cases hfind : List.find? (fun m => m.1 == v) migs with
    | none =>
      rw [hfind] at h
      cases h
    | some m0 =>
      rw [hfind] at h
      have hmem := List.mem_of_find?_eq_some hfind
      have h1 : m0.1 = v := by simpa using List.find?_some hfind
      have h2 : m0.2 = r := by simpa using h
      obtain ⟨a, b⟩ := m0
      simp only at h1 h2
      subst h1
      subst h2
      exact hmem
  · intro hmem
    have hsome : (List.find? (fun m => m.1 == v) migs).isSome :=
      List.find?_isSome.mpr ⟨(v, r), hmem, by simp⟩
    rcases Option.isSome_iff_exists.mp hsome with ⟨m0, hm0⟩
    have h1 : m0.1 = v := by simpa using List.find?_some hm0
    have heq : m0 = (v, r) :=
      List.inj_on_of_nodup_map hnd (List.mem_of_find?_eq_some hm0) hmem (by simp [h1])
    unfold lookupMig
    rw [hm0, heq]
    rfl

/-- Sorting the dictionary items does not change any version's record
(keys are distinct). -/
theorem lookup_sortMigs (migs : List (Nat × MigRecord))
    (hnd : (migs.map (fun m => m.1)).Nodup) (v : Nat) :
    lookupMig (sortMigs migs) v = lookupMig migs v := by
  have hperm : (sortMigs migs).Perm migs := List.perm_insertionSort _ _
  have hndS : ((sortMigs migs).map (fun m => m.1)).Nodup :=
    ((hperm.map _).nodup_iff).mpr hnd
  cases hl : lookupMig migs v with
  | none =>
    refine (lookup_eq_none _ v).mpr ?_
    intro hmem
    exact (lookup_eq_none migs v).mp hl ((hperm.map (fun m => m.1)).mem_iff.mp hmem)
  | some r =>
    exact (lookup_some_iff_mem _ hndS v r).mpr
      (hperm.mem_iff.mpr ((lookup_some_iff_mem migs hnd v r).mp hl))

instance : IsTotal (Nat × MigRecord) (fun a b => a.1 ≤ b.1) :=
  ⟨fun a b => Nat.le_total a.1 b.1⟩

instance : IsTrans (Nat × MigRecord) (fun a b => a.1 ≤ b.1) :=
  ⟨fun _ _ _ h1 h2 => Nat.le_trans h1 h2⟩

/-- With distinct keys, `sorted(...)` by version is strictly ascending. -/
theorem sortMigs_sorted (migs : List (Nat × MigRecord))
    (hnd : (migs.map (fun m => m.1)).Nodup) :
    List.Pairwise (fun a b => a.1 < b.1) (sortMigs migs) := by
  have hs : List.Pairwise (fun a b : Nat × MigRecord => a.1 ≤ b.1) (sortMigs migs) :=
    List.sorted_insertionSort _ migs
  have hperm : (sortMigs migs).Perm migs := List.perm_insertionSort _ _
  have hndS : ((sortMigs migs).map (fun m => m.1)).Nodup :=
    ((hperm.map _).nodup_iff).mpr hnd
  have hne : List.Pairwise (fun a b : Nat × MigRecord => a.1 ≠ b.1) (sortMigs migs) :=
    List.pairwise_map.mp hndS
  exact (hs.and hne).imp (fun h => lt_of_le_of_ne h.1 h.2)

/-- The fold of dictionary writes realises exactly "last file wins" for
the name and for each direction's script. -/
theorem foldl_stepRec_fields :
    ∀ (ms : List (String × Direction × String)) (o : Option MigRecord) (r : MigRecord),
      ms.foldl stepRec o = some r →
      some r.name = orO (lastName ms) (o.map (fun x => x.name)) ∧
      r.up = orO (lastUp ms) (o.bind (fun x => x.up)) ∧
      r.down = orO (lastDown ms) (o.bind (fun x => x.down)) := by
  intro ms
  induction ms with
  | nil =>
    intro o r h
    simp only [List.foldl_nil] at h
    subst h
    exact ⟨rfl, rfl, rfl⟩
  | cons x ms ih =>
    intro o r h
    obtain ⟨n, d, f⟩ := x
    simp only [List.foldl_cons] at h
    obtain ⟨h1, h2, h3⟩ := ih (stepRec o (n, d, f)) r h
    refine ⟨?_, ?_, ?_⟩
    · have hname : (stepRec o (n, d, f)).map (fun x => x.name) = some n := by
        cases o <;> cases d <;> rfl
      rw [hname] at h1
      have hcons : lastName ((n, d, f) :: ms) = orO (lastName ms) (some n) := rfl
      rw [hcons, orO_some_absorb]
      exact h1
    · cases d with
      | up =>
        have hstep : (stepRec o (n, Direction.up, f)).bind (fun x => x.up) = some f := by
          cases o <;> rfl
        rw [hstep] at h2
        have hcons : lastUp ((n, Direction.up, f) :: ms) = orO (lastUp ms) (some f) := rfl
        rw [hcons, orO_some_absorb]
        exact h2
      | down =>
        have hstep : (stepRec o (n, Direction.down, f)).bind (fun x => x.up) =
            o.bind (fun x => x.up) := by
          cases o <;> rfl
        rw [hstep] at h2
        exact h2
    · cases d with
      | down =>
        have hstep : (stepRec o (n, Direction.down, f)).bind (fun x => x.down) = some f := by
          cases o <;> rfl
        rw [hstep] at h3
        have hcons : lastDown ((n, Direction.down, f) :: ms) = orO (lastDown ms) (some f) := rfl
        rw [hcons, orO_some_absorb]
        exact h3
      | up =>
        have hstep : (stepRec o (n, Direction.up, f)).bind (fun x => x.down) =
            o.bind (fun x => x.down) := by
          cases o <;> rfl
        rw [hstep] at h3
        exact h3

/-- C5: for a directory whose load succeeds, the migration list is sorted
strictly ascending by version (hence duplicate-free), and each version's
record holds the name group of the last matching file seen for that
version and, per direction, the file name of the last matching file of
that direction ("last file wins"). -/
theorem C5_sorted_last_file_wins (entries : List DirEntry)
    (migs : List (Nat × MigRecord))
    (h : load_metadata_migration_files entries = .ok migs) :
    List.Pairwise (fun a b => a.1 < b.1) migs ∧
    ∀ p ∈ migs,
      some p.2.name = lastName (matchingFor entries p.1) ∧
      p.2.up = lastUp (matchingFor entries p.1) ∧
      p.2.down = lastDown (matchingFor entries p.1) := by
  unfold load_metadata_migration_files at h
  cases hload : loadAux [] entries with
  | error e =>
    rw [hload] at h
    cases h
  | ok pre =>
    rw [hload] at h
    have hmigs : migs = sortMigs pre := by
      cases h
      rfl
    subst hmigs
    have hnd : (pre.map (fun m => m.1)).Nodup :=
      loadAux_keys_nodup entries [] pre hload (by simp)
    refine ⟨sortMigs_sorted pre hnd, ?_⟩
    intro p hp
    have hperm : (sortMigs pre).Perm pre := List.perm_insertionSort _ _
    have hndS : ((sortMigs pre).map (fun m => m.1)).Nodup :=
      ((hperm.map _).nodup_iff).mpr hnd
    have hlookupS : lookupMig (sortMigs pre) p.1 = some p.2 :=
      (lookup_some_iff_mem _ hndS _ _).mpr (by rw [Prod.mk.eta]; exact hp)
    have hlookup : lookupMig pre p.1 = some p.2 := by
      rw [← lookup_sortMigs pre hnd p.1]
      exact hlookupS
    have hfold : (matchingFor entries p.1).foldl stepRec none = some p.2 := by
      have hll := loadAux_lookup entries [] pre hload p.1
      rw [hlookup] at hll
      exact hll.symm
    obtain ⟨h1, h2, h3⟩ := foldl_stepRec_fields _ none p.2 hfold
    refine ⟨?_, ?_, ?_⟩
    · rw [h1]
      exact orO_none_right _
    · rw [h2]
      exact orO_none_right _
    · rw [h3]
      exact orO_none_right _

/-- C5 witness: two files share version 1; the loaded record keeps the
later name `b`, the up script of the first file and the down script of the
second. -/
theorem C5_sorted_last_file_wins_witness :
    List.Pairwise (fun a b => a.1 < b.1)
      [(1, (⟨"b", some "1_a.up.sql", some "1_b.down.sql"⟩ : MigRecord))] ∧
    ∀ p ∈ [(1, (⟨"b", some "1_a.up.sql", some "1_b.down.sql"⟩ : MigRecord))],
      some p.2.name = lastName (matchingFor entPair p.1) ∧
      p.2.up = lastUp (matchingFor entPair p.1) ∧
      p.2.down = lastDown (matchingFor entPair p.1) :=
  C5_sorted_last_file_wins entPair _ rfl

/-! ### Lemmas for the round trip -/

/-- Upserting a version absent from the ledger appends a clean row. -/
theorem upsertRow_not_mem (led : List LedgerRow) (v : Nat) (name : String)
    (h : ∀ r ∈ led, r.version ≠ v) :
    upsertRow led v name = led ++ [⟨v, name, false⟩] := by
  unfold upsertRow
  rw [if_neg ?_]
  intro hany
  rcases List.any_eq_true.mp hany with ⟨r, hr, hrv⟩
  exact h r hr (by simpa using hrv)

/-- Running `Up(0)` from a `None` current version over fresh, distinct versions
with succeeding scripts appends one clean row per migration, in order. -/
theorem up_aux_all_ledger (env : String → Bool) :
    ∀ (l : List (Nat × MigRecord)) (iter : Nat) (s : EngineState),
      s.current = none →
      (∀ m ∈ l, ∃ f, m.2.up = some f ∧ env f = true) →
      (l.map (fun m => m.1)).Nodup →
      (∀ m ∈ l, ∀ r ∈ s.ledger, r.version ≠ m.1) →
      ∃ s', migrate_up_aux env 0 l iter s = .ok s' ∧
        s'.ledger = s.ledger ++
          l.map (fun m => (⟨m.1, m.2.name, false⟩ : LedgerRow)) := by
  intro l
  induction l with
  | nil =>
    intro iter s _ _ _ _
    exact ⟨s, rfl, by simp⟩
  | cons m rest ih =>
    intro iter s hcur hscr hnd hdisj
    simp only [migrate_up_aux]
    have hskip : geOpt s.current m.1 = false := by rw [hcur]; rfl
    rw [if_neg (by simp [hskip])]
    rw [if_neg (by simp)]
    rcases hscr m (List.mem_cons_self m rest) with ⟨f, hf, henvf⟩
    simp only [hf]
    rw [if_pos (by exact henvf)]
    have hups : upsertRow s.ledger m.1 m.2.name = s.ledger ++ [⟨m.1, m.2.name, false⟩] :=
      upsertRow_not_mem _ _ _ (fun r hr => hdisj m (List.mem_cons_self m rest) r hr)
    have hm1 : m.1 ∉ rest.map (fun m => m.1) :=
      (List.nodup_cons.mp (by simpa using hnd)).1
    rcases ih (iter + 1)
        { s with ledger := upsertRow s.ledger m.1 m.2.name,
                 updated := some m.1, changed := true,
                 executed := s.executed ++ [f], applied := s.applied ++ [m.1] }
        (by exact hcur)
        (fun m' hm' => hscr m' (List.mem_cons_of_mem m hm'))
        (List.Nodup.of_cons (by simpa using hnd))
        (by intro m' hm' r hr
            simp only at hr
            rw [hups] at hr
            rcases List.mem_append.mp hr with hr | hr
            · exact hdisj m' (List.mem_cons_of_mem m hm') r hr
            · have hres : r = ⟨m.1, m.2.name, false⟩ := by simpa using hr
              subst hres
              intro hEq
              have hEq2 : m.1 = m'.1 := hEq
              exact hm1 (hEq2 ▸ List.mem_map.mpr ⟨m', hm', rfl⟩)) with ⟨s', hrun, hled⟩
    refine ⟨s', hrun, ?_⟩
    rw [hled]
    simp only [hups]
    simp [List.append_assoc]

theorem foldl_max_le_init : ∀ (vs : List Nat) (a : Nat), a ≤ vs.foldl Nat.max a := by
  intro vs
  induction vs with
  | nil => intro a; exact Nat.le_refl a
  | cons v vs ih =>
    intro a
    exact Nat.le_trans (Nat.le_max_left a v) (ih (Nat.max a v))

theorem foldl_max_mem_le :
    ∀ (vs : List Nat) (a : Nat) (v : Nat), v ∈ vs → v ≤ vs.foldl Nat.max a := by
  intro vs
  induction vs with
  | nil => intro a v hv; cases hv
  | cons w vs ih =>
    intro a v hv
    rcases List.mem_cons.mp hv with rfl | hv'
    · exact Nat.le_trans (Nat.le_max_right a v) (foldl_max_le_init vs (Nat.max a v))
    · exact ih (Nat.max a w) v hv'

/-- The `MAX(version)` bound: every listed version is at most the maximum. -/
theorem maxVersion_ge (vs : List Nat) (c : Nat) (h : maxVersion vs = some c) :
    ∀ v ∈ vs, v ≤ c := by
  cases vs with
  | nil => intro v hv; cases hv
  | cons a vs =>
    simp only [maxVersion, Option.some.injEq] at h
    subst h
    intro v hv
    rcases List.mem_cons.mp hv with rfl | hv'
    · exact foldl_max_le_init vs v
    · exact foldl_max_mem_le vs a v hv'

/-- On an all-clean ledger the dirty filter of `get_current_version` is the
identity. -/
theorem current_of_clean (rows : List LedgerRow) (h : ∀ r ∈ rows, r.dirty = false) :
    get_current_version rows = maxVersion (rows.map (fun r => r.version)) := by
  unfold get_current_version
  rw [List.filter_eq_self.mpr ?_]
  intro r hr
  simp [h r hr]

/-- Running `Down(0)` with no skip and succeeding scripts deletes each visited
version's row, folding over the visit order. -/
theorem down_aux_all_delete (env : String → Bool) :
    ∀ (l : List (Nat × MigRecord)) (iter : Nat) (s : EngineState),
      (∀ m ∈ l, ltOpt s.current m.1 = false) →
      (∀ m ∈ l, ∃ f, m.2.down = some f ∧ env f = true) →
      ∃ s', migrate_down_aux env 0 l iter s = .ok s' ∧
        s'.ledger = l.foldl (fun led m => deleteRow led m.1 m.2.name) s.ledger := by
  intro l
  induction l with
  | nil =>
    intro iter s _ _
    exact ⟨s, rfl, rfl⟩
  | cons m rest ih =>
    intro iter s hskip hscr
    simp only [migrate_down_aux]
    rw [if_neg (by simp [hskip m (List.mem_cons_self m rest)])]
    rw [if_neg (by simp)]
    rcases hscr m (List.mem_cons_self m rest) with ⟨f, hf, henvf⟩
    simp only [hf]
    rw [if_pos (by exact henvf)]
    rcases ih (iter + 1)
        { s with ledger := deleteRow s.ledger m.1 m.2.name,
                 updated := some m.1, changed := true,
                 executed := s.executed ++ [f], applied := s.applied ++ [m.1] }
        (fun m' hm' => hskip m' (List.mem_cons_of_mem m hm'))
        (fun m' hm' => hscr m' (List.mem_cons_of_mem m hm')) with ⟨s', hrun, hled⟩
    exact ⟨s', hrun, by rw [hled]; rfl⟩

/-- Deleting by versions different from a row's version keeps the row. -/
theorem foldl_del_cons :
    ∀ (ms : List (Nat × MigRecord)) (r : LedgerRow) (X : List LedgerRow),
      (∀ m ∈ ms, r.version ≠ m.1) →
      ms.foldl (fun led m => deleteRow led m.1 m.2.name) (r :: X) =
        r :: ms.foldl (fun led m => deleteRow led m.1 m.2.name) X := by
  intro ms
  induction ms with
  | nil => intro r X _; rfl
  | cons m ms ih =>
    intro r X h
    simp only [List.foldl_cons]
    have hdel : deleteRow (r :: X) m.1 m.2.name = r :: deleteRow X m.1 m.2.name := by
      unfold deleteRow
      rw [List.filter_cons]
      rw [if_pos (by simp [h m (List.mem_cons_self m ms)])]
    rw [hdel]
    exact ih r _ (fun m' hm' => h m' (List.mem_cons_of_mem m hm'))

/-- Deleting every migration's row (in reverse order) from the ledger of
exactly those rows empties it. -/
theorem delete_clears :
    ∀ (migs : List (Nat × MigRecord)),
      (migs.map (fun m => m.1)).Nodup →
      migs.reverse.foldl (fun led m => deleteRow led m.1 m.2.name)
        (migs.map (fun m => (⟨m.1, m.2.name, false⟩ : LedgerRow))) = [] := by
  intro migs
  induction migs with
  | nil => intro _; rfl
  | cons m rest ih =>
    intro hnd
    have hm1 : m.1 ∉ rest.map (fun m => m.1) :=
      (List.nodup_cons.mp (by simpa using hnd)).1
    rw [List.reverse_cons, List.foldl_append, List.map_cons]
    have hrow : ∀ m' ∈ rest.reverse, (⟨m.1, m.2.name, false⟩ : LedgerRow).version ≠ m'.1 := by
      intro m' hm'
      intro hEq
      have hEq2 : m.1 = m'.1 := hEq
      exact hm1 (hEq2 ▸ List.mem_map.mpr ⟨m', List.mem_reverse.mp hm', rfl⟩)
    rw [foldl_del_cons rest.reverse _ _ hrow]
    rw [ih (List.Nodup.of_cons (by simpa using hnd))]
    simp [deleteRow]

/-- C8: with a sorted migration list whose versions all have both scripts
and an environment where every script succeeds, `Up(0)` from the empty
ledger followed by a fresh `Down(0)` run empties the ledger again, so the
current version is `none` once more. -/
theorem C8_up_down_round_trip (env : String → Bool) (migs : List (Nat × MigRecord))
    (henv : ∀ f, env f = true)
    (hsorted : List.Pairwise (fun a b => a.1 < b.1) migs)
    (hscripts : ∀ m ∈ migs, m.2.up.isSome ∧ m.2.down.isSome) :
    upThenDown env migs = some [] ∧ get_current_version [] = none := by
  refine ⟨?_, rfl⟩
  have hnd : (migs.map (fun m => m.1)).Nodup :=
    List.pairwise_map.mpr (hsorted.imp (fun h => Nat.ne_of_lt h))
  have hscr : ∀ m ∈ migs, ∃ f, m.2.up = some f ∧ env f = true := by
    intro m hm
    rcases Option.isSome_iff_exists.mp (hscripts m hm).1 with ⟨f, hf⟩
    exact ⟨f, hf, henv f⟩
  have hscr2 : ∀ m ∈ migs, ∃ f, m.2.down = some f ∧ env f = true := by
    intro m hm
    rcases Option.isSome_iff_exists.mp (hscripts m hm).2 with ⟨f, hf⟩
    exact ⟨f, hf, henv f⟩
  rcases up_aux_all_ledger env migs 0 (initState []) rfl hscr hnd
      (by intro m _ r hr; cases hr) with ⟨s1, hrun1, hled1⟩
  have hrun1' : migrate_up env migs 0 (initState []) = .ok s1 := hrun1
  have hled1' : s1.ledger = migs.map (fun m => (⟨m.1, m.2.name, false⟩ : LedgerRow)) := by
    simpa using hled1
  have hclean : ∀ r ∈ s1.ledger, r.dirty = false := by
    intro r hr
    rw [hled1'] at hr
    rcases List.mem_map.mp hr with ⟨m, _, rfl⟩
    rfl
  have hcur2 : (initState s1.ledger).current = maxVersion (migs.map (fun m => m.1)) := by
    show get_current_version s1.ledger = _
    rw [current_of_clean _ hclean, hled1', List.map_map]
    rfl
  have hskip : ∀ m ∈ migs.reverse, ltOpt (initState s1.ledger).current m.1 = false := by
    intro m hm
    rw [hcur2]
    rcases hmv : maxVersion (migs.map (fun m => m.1)) with _ | c
    · exfalso
      cases hmigs2 : migs with
      | nil =>
        rw [hmigs2] at hm
        cases hm
      | cons a b =>
        rw [hmigs2] at hmv
        exact absurd hmv (by simp [maxVersion])
    · have hle : m.1 ≤ c :=
        maxVersion_ge _ c hmv m.1 (List.mem_map.mpr ⟨m, List.mem_reverse.mp hm, rfl⟩)
      rw [hmv]
      simp [ltOpt, Nat.not_lt.mpr hle]
  rcases down_aux_all_delete env migs.reverse 0 (initState s1.ledger) hskip
      (fun m hm => hscr2 m (List.mem_reverse.mp hm)) with ⟨s2, hrun2, hled2⟩
  have hrun2' : migrate_down env migs 0 (initState s1.ledger) = .ok s2 := hrun2
  have hfinal : s2.ledger = [] := by
    rw [hled2]
    have hinit : (initState s1.ledger).ledger = s1.ledger := rfl
    rw [hinit, hled1']
    exact delete_clears migs hnd
  unfold upThenDown
  rw [hrun1']
  dsimp only
  rw [hrun2']
  dsimp only
  rw [hfinal]

/-- C8 witness: the round trip over migrations `[1, 2, 3]`, all scripts
present and succeeding. -/
theorem C8_up_down_round_trip_witness :
    upThenDown (fun _ => true) migsABC = some [] ∧ get_current_version [] = none :=
  C8_up_down_round_trip (fun _ => true) migsABC (fun _ => rfl)
    (by decide) (by decide)

end MysqlMigration
